import Mathlib

/-!
# Verification of the seen-article deduplication core of `rss_to_email.py`

Shallow embedding of the state machine in `src/rss_to_email.py`:
the per-feed bounded history of delivered article links
(`load_seen_articles`, the inline `is_new` / `record_batch` logic of
`fetch_rss_articles`) and the reading-time estimator
(`get_reading_time_from_text`).

External effects are parameters:
* `feedparser.parse(url).entries` is a function `String → List Entry`
  (a feed that fails to retrieve or parse yields `[]`, which is what
  `feedparser` returns on error);
* `urlparse(url).netloc` is a function `String → String`;
* `BeautifulSoup(html).get_text()` is a function `String → String`;
* `get_reading_time_from_url` (network fetch) is a function
  `String → ReadingTime`;
* the durable state file is an `Option (Option Json)`:
  `none` = file absent, `some none` = contents are not valid JSON
  (`json.JSONDecodeError`), `some (some j)` = contents parse to `j`.
-/

set_option autoImplicit false
set_option maxRecDepth 10000

namespace RssToEmail

/-- A JSON value, the result of Python `json.load`. -/
inductive Json where
  | null : Json
  | bool : Bool → Json
  | num : Int → Json
  | str : String → Json
  | arr : List Json → Json
  | obj : List (String × Json) → Json

/-- Whether a JSON value has the structure the seen-articles file is
documented to hold: an object mapping feed-URL strings to arrays of
identifier strings. -/
def isExpectedStructure : Json → Bool
  | .obj l => l.all fun kv =>
      match kv.2 with
      | .arr items => items.all fun it =>
          match it with
          | .str _ => true
          | _ => false
      | _ => false
  | _ => false

/-- `load_seen_articles` (src/rss_to_email.py lines 52-66).
The argument models the durable state file: `none` when
`os.path.exists` is false, `some none` when `json.load` raises
`json.JSONDecodeError`, `some (some j)` when `json.load` returns `j`.
The function is total: it never raises. -/
def load_seen_articles : Option (Option Json) → Json
  | none => .obj []
  | some none => .obj []
  | some (some j) => j

/-- The in-memory seen-articles mapping: a Python dict from feed URL to
the list of seen links, most recent first, modelled as an
insertion-ordered association list. -/
def FeedHistory : Type := List (String × List String)

/-- First value stored under key `f`, if any (Python `d[f]` / `f in d`). -/
def histFind : FeedHistory → String → Option (List String)
  | [], _ => none
  | (k, v) :: t, f => if k = f then some v else histFind t f

/-- Value stored under key `f`, an absent key reading as `[]`. -/
def histGet (h : FeedHistory) (f : String) : List String :=
  (histFind h f).getD []

/-- Python dict assignment `d[f] = v`: replace the first binding of `f`
in place, or append a new binding at the end. -/
def histSet : FeedHistory → String → List String → FeedHistory
  | [], f, v => [(f, v)]
  | (k, w) :: t, f, v => if k = f then (f, v) :: t else (k, w) :: histSet t f v

/-- `if feed_url not in seen_articles: seen_articles[feed_url] = []`
(src/rss_to_email.py lines 82-83). -/
def ensureKey (h : FeedHistory) (f : String) : FeedHistory :=
  match histFind h f with
  | none => histSet h f []
  | some _ => h

/-- The novelty test of src/rss_to_email.py line 91,
`entry.link in seen_articles[feed_url]`, negated: an article is new
when its link is not in the feed's current history, an absent feed key
reading as the empty list. -/
def is_new (h : FeedHistory) (f link : String) : Bool :=
  !(histGet h f).contains link

/-- The batch update of src/rss_to_email.py lines 119-122:
prepend the new links to the feed's list, then truncate to the first
`maxN` entries. -/
def record_batch (maxN : Nat) (h : FeedHistory) (f : String)
    (newLinks : List String) : FeedHistory :=
  histSet h f ((newLinks ++ histGet h f).take maxN)

/-- Python `str.isspace` characters relevant to `str.split()` /
`str.strip()`. -/
def pyIsSpace (c : Char) : Bool :=
  c = ' ' || c = '\t' || c = '\n' || c = '\x0d' || c = '\x0b' || c = '\x0c'

/-- Python `str.strip()`: drop whitespace from both ends. -/
def pyStrip (l : List Char) : List Char :=
  ((l.dropWhile pyIsSpace).reverse.dropWhile pyIsSpace).reverse

/-- `len(text.split())`: the number of maximal runs of non-whitespace
characters (Python `str.split()` with no separator splits on whitespace
runs and drops empty fields). The flag records whether the previous
character belonged to a word. -/
def countWordsAux : Bool → List Char → Nat
  | _, [] => 0
  | inWord, c :: rest =>
    if pyIsSpace c then countWordsAux false rest
    else (if inWord then 0 else 1) + countWordsAux true rest

/-- Whitespace-separated word count of a string, `len(text.split())`. -/
def wordCount (text : String) : Nat :=
  countWordsAux false text.data

/-- Python `round(words / 200)`: round to nearest, ties to even
(IEEE round-half-even; `words / 200` is exactly representable for the
word counts at stake, so the tie rule is the rational one). -/
def pyRound200 (words : Nat) : Nat :=
  let q := words / 200
  let r := words % 200
  if r < 100 then q
  else if 100 < r then q + 1
  else if q % 2 = 0 then q else q + 1

/-- `get_reading_time_from_text` (src/rss_to_email.py lines 37-40):
`round(len(text.split()) / 200)`. -/
def get_reading_time_from_text (text : String) : Nat :=
  pyRound200 (wordCount text)

/-- An article reading time: an estimate in minutes, or the string
`"Unknown"` that `get_reading_time_from_url` returns on failure. -/
inductive ReadingTime where
  | mins : Nat → ReadingTime
  | unknown : ReadingTime
deriving DecidableEq

/-- A parsed feed entry as exposed by `feedparser`: `contentParts` are
the `value` fields of `entry.get("content", [])`; `description` is
`entry.get("description", "")` (absent reads as `""`); `author` is
`None` when `entry.get("author", ...)` would take the default. -/
structure Entry where
  title : String
  link : String
  contentParts : List String
  description : String
  author : Option String
deriving DecidableEq

/-- An output article record (the dict built at
src/rss_to_email.py lines 108-114). -/
structure Article where
  title : String
  link : String
  reading_time : ReadingTime
  author : String
  content : String
deriving DecidableEq

/-- `" ".join(item.get("value", "") for item in content_list).strip()`
(src/rss_to_email.py line 97). -/
def joinedContent (e : Entry) : String :=
  ⟨pyStrip (String.intercalate " " e.contentParts).data⟩

/-- Body of the entry loop (src/rss_to_email.py lines 95-114): build
the article dict for one new entry. `getText` stands for
`BeautifulSoup(html).get_text()`; `urlRT` for
`get_reading_time_from_url`. -/
def processEntry (getText : String → String) (urlRT : String → ReadingTime)
    (feedDomain : String) (e : Entry) : Article :=
  let content := joinedContent e
  { title := e.title
    link := e.link
    reading_time :=
      if content ≠ "" then .mins (get_reading_time_from_text (getText content))
      else urlRT e.link
    author := e.author.getD feedDomain
    content := if content ≠ "" then content else e.description }

/-- The scan loop (src/rss_to_email.py lines 89-116): walk the capped
entry list and stop (`break`) at the first entry whose link is already
in `seen`, the feed's history as it stood when the scan began. -/
def scanEntries (seen : List String) : List Entry → List Entry
  | [] => []
  | e :: rest =>
    if seen.contains e.link then [] else e :: scanEntries seen rest

/-- One iteration of the feed loop of `fetch_rss_articles`
(src/rss_to_email.py lines 80-122) for a feed whose parsed entries are
`entries` and whose `urlparse(feed_url).netloc` is `domain`: ensure the
feed key exists, scan the first `maxN` entries stopping at the first
already-seen link, emit an article per new entry, and record the new
links via the prepend-then-truncate batch update. -/
def processFeed (getText : String → String) (urlRT : String → ReadingTime)
    (maxN : Nat) (h : FeedHistory) (feedUrl domain : String)
    (entries : List Entry) : List Article × FeedHistory :=
  let h1 := ensureKey h feedUrl
  let scanned := scanEntries (histGet h1 feedUrl) (entries.take maxN)
  (scanned.map (processEntry getText urlRT domain),
   record_batch maxN h1 feedUrl (scanned.map (·.link)))

/-- `fetch_rss_articles` (src/rss_to_email.py lines 73-126) as a pure
pipeline: fold the feed loop over the configured feed URLs, returning
the concatenated article list and the final history (the mapping handed
to `save_seen_articles`). `feedEntries` stands for
`feedparser.parse(url).entries` (a feed that fails to retrieve or parse
yields `[]`); `domainOf` for `urlparse(url).netloc`. -/
def fetch_rss_articles (getText : String → String)
    (urlRT : String → ReadingTime) (domainOf : String → String)
    (feedEntries : String → List Entry) (maxN : Nat) :
    List String → FeedHistory → List Article × FeedHistory
  | [], h => ([], h)
  | f :: rest, h =>
    let step := processFeed getText urlRT maxN h f (domainOf f) (feedEntries f)
    let next := fetch_rss_articles getText urlRT domainOf feedEntries maxN rest step.2
    (step.1 ++ next.1, next.2)

/-- An entry carrying only a link (and title), as in the spec scenarios
where entries are named by their identifiers. -/
def entryWithLink (l : String) : Entry :=
  { title := l, link := l, contentParts := [], description := "", author := none }

/-- A trivial HTML-to-text extraction (identity), standing in for
`BeautifulSoup(html).get_text()` in concrete scenarios. -/
def idText : String → String := fun s => s

/-- A URL reading-time oracle that always fails, standing in for
`get_reading_time_from_url` in concrete scenarios. -/
def noUrlRT : String → ReadingTime := fun _ => .unknown

/-- A feed source on which every feed fails to retrieve or parse:
`feedparser` then yields an empty entry list. -/
def noEntries : String → List Entry := fun _ => []

/-- A feed source on which every feed serves the single entry `b`. -/
def oneEntryB : String → List Entry := fun _ => [entryWithLink "b"]

/-- An entry with a description but no inline content. -/
def entryDescOnly : Entry :=
  { title := "t", link := "L", contentParts := [], description := "some words here",
    author := none }

/-- A feed source where feed `good` serves one entry and every other
feed fails to retrieve or parse (yielding no entries). -/
def goodBadEntries : String → List Entry :=
  fun u => if u = "good" then [entryWithLink "g1"] else []

/-- A feed slot is stable for a run when its key exists, it respects
the bound, and a fresh scan of the feed's capped entries stops
immediately: processing such a feed again changes nothing. -/
def Stable (maxN : Nat) (feedEntries : String → List Entry)
    (h : FeedHistory) (f : String) : Prop :=
  ∃ v, histFind h f = some v ∧ v.length ≤ maxN ∧
    scanEntries v ((feedEntries f).take maxN) = []

end RssToEmail

namespace RssToEmail

/-! ## Helper lemmas about the history mapping -/

theorem histFind_histSet_self (h : FeedHistory) (f : String) (v : List String) :
    histFind (histSet h f v) f = some v := by
  induction h with
  | nil => simp [histSet, histFind]
  | cons kv t ih =>
    obtain ⟨k, w⟩ := kv
    by_cases hk : k = f <;> simp [histSet, histFind, hk, ih]

theorem histFind_histSet_ne (h : FeedHistory) (f g : String) (v : List String)
    (hne : g ≠ f) : histFind (histSet h f v) g = histFind h g := by
  induction h with
  | nil => simp [histSet, histFind, Ne.symm hne]
  | cons kv t ih =>
    obtain ⟨k, w⟩ := kv
    by_cases hk : k = f
    · subst hk
      simp [histSet, histFind, Ne.symm hne]
    · by_cases hg : k = g <;> simp [histSet, histFind, hk, hg, hne, ih]

theorem histGet_histSet_self (h : FeedHistory) (f : String) (v : List String) :
    histGet (histSet h f v) f = v := by
  simp [histGet, histFind_histSet_self]

theorem histGet_histSet_ne (h : FeedHistory) (f g : String) (v : List String)
    (hne : g ≠ f) : histGet (histSet h f v) g = histGet h g := by
  simp [histGet, histFind_histSet_ne h f g v hne]

theorem histSet_self (h : FeedHistory) (f : String) (v : List String)
    (hv : histFind h f = some v) : histSet h f v = h := by
  induction h with
  | nil => simp [histFind] at hv
  | cons kv t ih =>
    obtain ⟨k, w⟩ := kv
    by_cases hk : k = f
    · subst hk
      simp [histFind] at hv
      simp [histSet, hv]
    · simp [histFind, hk] at hv
      simp [histSet, hk, ih hv]

theorem histFind_ensureKey (h : FeedHistory) (f : String) :
    histFind (ensureKey h f) f = some (histGet h f) := by
  unfold ensureKey histGet
  cases hv : histFind h f with
  | none => simp [histFind_histSet_self]
  | some v => simp [hv]

theorem histGet_ensureKey_self (h : FeedHistory) (f : String) :
    histGet (ensureKey h f) f = histGet h f := by
  simp [histGet, histFind_ensureKey]

theorem histGet_ensureKey_ne (h : FeedHistory) (f g : String) (hne : g ≠ f) :
    histGet (ensureKey h f) g = histGet h g := by
  unfold ensureKey
  cases hv : histFind h f with
  | none => simp [histGet_histSet_ne h f g [] hne]
  | some v => rfl

/-! ## Helper lemmas about the feed loop -/

theorem histFind_ensureKey_ne (h : FeedHistory) (f g : String) (hne : g ≠ f) :
    histFind (ensureKey h f) g = histFind h g := by
  unfold ensureKey
  cases hv : histFind h f with
  | none => simp [histFind_histSet_ne h f g [] hne]
  | some v => rfl

theorem scanEntries_eq_takeWhile (seen : List String) (l : List Entry) :
    scanEntries seen l = l.takeWhile (fun e => !seen.contains e.link) := by
  induction l with
  | nil => rfl
  | cons e rest ih =>
    by_cases hl : seen.contains e.link = true <;>
      simp [scanEntries, List.takeWhile_cons, hl, ih]

theorem processFeed_articles (gt : String → String) (urt : String → ReadingTime)
    (maxN : Nat) (h : FeedHistory) (f dom : String) (entries : List Entry) :
    (processFeed gt urt maxN h f dom entries).1
      = ((entries.take maxN).takeWhile
          (fun e => !(histGet h f).contains e.link)).map (processEntry gt urt dom) := by
  simp only [processFeed]
  rw [histGet_ensureKey_self, scanEntries_eq_takeWhile]

theorem processFeed_get_self (gt : String → String) (urt : String → ReadingTime)
    (maxN : Nat) (h : FeedHistory) (f dom : String) (entries : List Entry) :
    histGet (processFeed gt urt maxN h f dom entries).2 f
      = (((entries.take maxN).takeWhile
          (fun e => !(histGet h f).contains e.link)).map (·.link)
          ++ histGet h f).take maxN := by
  simp only [processFeed, record_batch]
  rw [histGet_histSet_self, histGet_ensureKey_self, scanEntries_eq_takeWhile]

theorem processFeed_find_ne (gt : String → String) (urt : String → ReadingTime)
    (maxN : Nat) (h : FeedHistory) (f dom g : String) (entries : List Entry)
    (hne : g ≠ f) :
    histFind (processFeed gt urt maxN h f dom entries).2 g = histFind h g := by
  simp only [processFeed, record_batch]
  rw [histFind_histSet_ne _ _ _ _ hne, histFind_ensureKey_ne _ _ _ hne]

theorem processFeed_get_ne (gt : String → String) (urt : String → ReadingTime)
    (maxN : Nat) (h : FeedHistory) (f dom g : String) (entries : List Entry)
    (hne : g ≠ f) :
    histGet (processFeed gt urt maxN h f dom entries).2 g = histGet h g := by
  simp [histGet, processFeed_find_ne gt urt maxN h f dom g entries hne]

theorem processFeed_len_self (gt : String → String) (urt : String → ReadingTime)
    (maxN : Nat) (h : FeedHistory) (f dom : String) (entries : List Entry) :
    (histGet (processFeed gt urt maxN h f dom entries).2 f).length ≤ maxN := by
  rw [processFeed_get_self, List.length_take]
  omega

theorem processFeed_find_self (gt : String → String) (urt : String → ReadingTime)
    (maxN : Nat) (h : FeedHistory) (f dom : String) (entries : List Entry) :
    histFind (processFeed gt urt maxN h f dom entries).2 f
      = some ((((entries.take maxN).takeWhile
          (fun e => !(histGet h f).contains e.link)).map (·.link)
          ++ histGet h f).take maxN) := by
  simp only [processFeed, record_batch]
  rw [histFind_histSet_self, histGet_ensureKey_self, scanEntries_eq_takeWhile]

/-! ## Helper lemmas about the run -/

theorem run_find_not_mem (gt : String → String) (urt : String → ReadingTime)
    (domOf : String → String) (fe : String → List Entry) (maxN : Nat)
    (feeds : List String) (h : FeedHistory) (g : String) (hg : g ∉ feeds) :
    histFind (fetch_rss_articles gt urt domOf fe maxN feeds h).2 g
      = histFind h g := by
  induction feeds generalizing h with
  | nil => rfl
  | cons f rest ih =>
    have hgf : g ≠ f := fun e => hg (e ▸ List.mem_cons_self f rest)
    have hgr : g ∉ rest := fun m => hg (List.mem_cons_of_mem f m)
    simp only [fetch_rss_articles]
    rw [ih _ hgr, processFeed_find_ne _ _ _ _ _ _ _ _ hgf]

theorem run_get_not_mem (gt : String → String) (urt : String → ReadingTime)
    (domOf : String → String) (fe : String → List Entry) (maxN : Nat)
    (feeds : List String) (h : FeedHistory) (g : String) (hg : g ∉ feeds) :
    histGet (fetch_rss_articles gt urt domOf fe maxN feeds h).2 g = histGet h g := by
  simp [histGet, run_find_not_mem gt urt domOf fe maxN feeds h g hg]

theorem run_len_mem (gt : String → String) (urt : String → ReadingTime)
    (domOf : String → String) (fe : String → List Entry) (maxN : Nat)
    (feeds : List String) (h : FeedHistory) (f : String) (hf : f ∈ feeds) :
    (histGet (fetch_rss_articles gt urt domOf fe maxN feeds h).2 f).length ≤ maxN := by
  induction feeds generalizing h with
  | nil => simp at hf
  | cons f0 rest ih =>
    simp only [fetch_rss_articles]
    by_cases hr : f ∈ rest
    · exact ih _ hr
    · have hf0 : f = f0 := by
        rcases List.mem_cons.mp hf with h' | h'
        · exact h'
        · exact absurd h' hr
      subst hf0
      rw [run_get_not_mem _ _ _ _ _ _ _ _ hr]
      exact processFeed_len_self gt urt maxN h f (domOf f) (fe f)

theorem processFeed_stable_id (gt : String → String) (urt : String → ReadingTime)
    (maxN : Nat) (h : FeedHistory) (f dom : String) (entries : List Entry)
    (v : List String) (hv : histFind h f = some v) (hlen : v.length ≤ maxN)
    (hscan : scanEntries v (entries.take maxN) = []) :
    processFeed gt urt maxN h f dom entries = ([], h) := by
  have hek : ensureKey h f = h := by unfold ensureKey; rw [hv]
  have hget : histGet h f = v := by simp [histGet, hv]
  simp only [processFeed, record_batch, hek, hget, hscan]
  simp [List.take_of_length_le hlen, histSet_self h f v hv]

theorem processFeed_stable_after (gt : String → String) (urt : String → ReadingTime)
    (maxN : Nat) (h : FeedHistory) (f dom : String) (fe : String → List Entry)
    (hlen : (histGet h f).length ≤ maxN) :
    Stable maxN fe (processFeed gt urt maxN h f dom (fe f)).2 f := by
  refine ⟨histGet (processFeed gt urt maxN h f dom (fe f)).2 f, ?_,
    processFeed_len_self gt urt maxN h f dom (fe f), ?_⟩
  · rw [processFeed_find_self, processFeed_get_self]
  · rw [processFeed_get_self]
    cases hcap : (fe f).take maxN with
    | nil => rfl
    | cons e0 rest =>
      have hN : 1 ≤ maxN := by
        rcases maxN with _ | m
        · simp at hcap
        · omega
      by_cases h0 : (histGet h f).contains e0.link = true
      · have htw : (e0 :: rest).takeWhile
            (fun e => !(histGet h f).contains e.link) = [] := by
          rw [List.takeWhile_cons, h0]
          simp
        rw [htw]
        simp only [List.map_nil, List.nil_append, List.take_of_length_le hlen]
        simp only [scanEntries, h0]
        simp
      · have h0' : (histGet h f).contains e0.link = false := by simpa using h0
        have htw : (e0 :: rest).takeWhile
            (fun e => !(histGet h f).contains e.link)
            = e0 :: rest.takeWhile (fun e => !(histGet h f).contains e.link) := by
          rw [List.takeWhile_cons, h0']
          simp
        rw [htw]
        obtain ⟨m, rfl⟩ : ∃ m, maxN = m + 1 := ⟨maxN - 1, by omega⟩
        simp only [List.map_cons, List.cons_append, List.take_succ_cons]
        simp [scanEntries]

theorem run_stable_after (gt : String → String) (urt : String → ReadingTime)
    (domOf : String → String) (fe : String → List Entry) (maxN : Nat)
    (feeds : List String) (h : FeedHistory)
    (hinv : ∀ f ∈ feeds, (histGet h f).length ≤ maxN) :
    ∀ f ∈ feeds, Stable maxN fe (fetch_rss_articles gt urt domOf fe maxN feeds h).2 f := by
  induction feeds generalizing h with
  | nil => intro f hf; simp at hf
  | cons f0 rest ih =>
    intro f hf
    simp only [fetch_rss_articles]
    have hinv1 : ∀ g ∈ rest,
        (histGet (processFeed gt urt maxN h f0 (domOf f0) (fe f0)).2 g).length ≤ maxN := by
      intro g hg
      by_cases hgf : g = f0
      · subst hgf
        exact processFeed_len_self gt urt maxN h g (domOf g) (fe g)
      · rw [processFeed_get_ne _ _ _ _ _ _ _ _ hgf]
        exact hinv g (List.mem_cons_of_mem f0 hg)
    by_cases hr : f ∈ rest
    · exact ih _ hinv1 f hr
    · have hf0 : f = f0 := by
        rcases List.mem_cons.mp hf with h' | h'
        · exact h'
        · exact absurd h' hr
      subst hf0
      obtain ⟨v, hv, hl, hsc⟩ :=
        processFeed_stable_after gt urt maxN h f (domOf f) fe
          (hinv f (List.mem_cons_self f rest))
      exact ⟨v, by rw [run_find_not_mem _ _ _ _ _ _ _ _ hr]; exact hv, hl, hsc⟩

theorem run_stable_id (gt : String → String) (urt : String → ReadingTime)
    (domOf : String → String) (fe : String → List Entry) (maxN : Nat)
    (feeds : List String) (h : FeedHistory)
    (hs : ∀ f ∈ feeds, Stable maxN fe h f) :
    fetch_rss_articles gt urt domOf fe maxN feeds h = ([], h) := by
  induction feeds with
  | nil => rfl
  | cons f0 rest ih =>
    obtain ⟨v, hv, hl, hsc⟩ := hs f0 (List.mem_cons_self f0 rest)
    have h0 : processFeed gt urt maxN h f0 (domOf f0) (fe f0) = ([], h) :=
      processFeed_stable_id gt urt maxN h f0 (domOf f0) (fe f0) v hv hl hsc
    simp only [fetch_rss_articles, h0]
    rw [ih (fun f hf => hs f (List.mem_cons_of_mem f0 hf))]
    rfl

/-! ## Claim theorems -/

/-- C1: for a feed with history length `h ≤ N` and a batch of `k` new
identifiers, the batch update prepends the batch and truncates to the
first `N` entries, so the result has length `min (h + k) N` and its
first `min k N` entries are the batch in submitted order. -/
theorem record_batch_prepend_truncate (maxN : Nat) (hist : FeedHistory)
    (f : String) (batch : List String)
    (hlen : (histGet hist f).length ≤ maxN) :
    (histGet (record_batch maxN hist f batch) f).length
        = min ((histGet hist f).length + batch.length) maxN ∧
    (histGet (record_batch maxN hist f batch) f).take (min batch.length maxN)
        = batch.take (min batch.length maxN) := by
  unfold record_batch
  rw [histGet_histSet_self]
  refine ⟨?_, ?_⟩
  · rw [List.length_take, List.length_append]
    omega
  · rw [List.take_take]
    have hm : min (min batch.length maxN) maxN = min batch.length maxN := by omega
    rw [hm, List.take_append_of_le_length (by omega)]

theorem record_batch_prepend_truncate_witness :
    (histGet [("f", ["a"])] "f").length ≤ 2 ∧
    ((histGet (record_batch 2 [("f", ["a"])] "f" ["x", "y"]) "f").length
        = min ((histGet [("f", ["a"])] "f").length + (["x", "y"] : List String).length) 2 ∧
     (histGet (record_batch 2 [("f", ["a"])] "f" ["x", "y"]) "f").take
          (min (["x", "y"] : List String).length 2)
        = (["x", "y"] : List String).take (min (["x", "y"] : List String).length 2)) :=
  ⟨by decide, record_batch_prepend_truncate 2 [("f", ["a"])] "f" ["x", "y"] (by decide)⟩

/-- C2: an entry is treated as new iff its link is not in the feed's
current history sequence, an absent feed key reading as the empty
sequence; for a feed never before seen every identifier is new. -/
theorem is_new_not_in_history (hist : FeedHistory) (f link : String) :
    (is_new hist f link = true ↔ link ∉ histGet hist f) ∧
    (histFind hist f = none → is_new hist f link = true) := by
  refine ⟨?_, ?_⟩
  · simp [is_new]
  · intro hnone
    simp [is_new, histGet, hnone]

theorem is_new_not_in_history_witness :
    histFind ([] : FeedHistory) "feed" = none ∧
    is_new ([] : FeedHistory) "feed" "id" = true :=
  ⟨rfl, (is_new_not_in_history [] "feed" "id").2 rfl⟩

/-- C3, counterexample: contents that are valid JSON but not the
expected structure (here the JSON array `[]`) are returned unchanged by
`load_seen_articles`, not replaced by the empty mapping: only an absent
file and a `json.JSONDecodeError` are mapped to `{}`. -/
theorem load_seen_articles_returns_malformed_json :
    load_seen_articles (some (some (Json.arr []))) = Json.arr [] ∧
    isExpectedStructure (Json.arr []) = false ∧
    Json.arr [] ≠ Json.obj [] :=
  ⟨rfl, rfl, fun h => Json.noConfusion h⟩

/-- C3, amended: `load_seen_articles` is total (never raises), and
returns the empty mapping when the resource is absent or its contents
are not valid JSON; contents that parse to any JSON value — also one
that is not the expected mapping structure — are returned as-is. -/
theorem load_seen_articles_total_recovery :
    load_seen_articles none = Json.obj [] ∧
    load_seen_articles (some none) = Json.obj [] ∧
    ∀ j : Json, load_seen_articles (some (some j)) = j :=
  ⟨rfl, rfl, fun _ => rfl⟩

/-- C7: `get_reading_time_from_text` is the whitespace-separated word
count divided by 200 and rounded to a nearest integer (the returned
value minimizes the distance `|200 * r - words|` over all integers);
the empty string yields 0, a 200-word text yields 1 and a 400-word
text yields 2. -/
theorem get_reading_time_from_text_nearest :
    (∀ (text : String) (m : Int),
      (200 * (get_reading_time_from_text text : Int) - (wordCount text : Int)).natAbs
        ≤ (200 * m - (wordCount text : Int)).natAbs) ∧
    get_reading_time_from_text "" = 0 ∧
    get_reading_time_from_text (String.intercalate " " (List.replicate 200 "a")) = 1 ∧
    get_reading_time_from_text (String.intercalate " " (List.replicate 400 "a")) = 2 := by
  refine ⟨?_, by decide, by decide, by decide⟩
  intro text m
  simp only [get_reading_time_from_text, pyRound200]
  split_ifs with h1 h2 h3 <;> omega

/-- C4: the scan over a feed's entries, capped to the first
`max_articles_per_feed` in source order, stops at the first entry whose
link is already in that feed's history; exactly the entries preceding
it are emitted as articles and recorded (prepended, then truncated).
Concretely, for history `[A, B]` and incoming entries `[X, A, Z]` only
`X` is emitted and the history becomes `[X, A, B]` truncated to `N`. -/
theorem scan_short_circuits_at_first_seen :
    (∀ (gt : String → String) (urt : String → ReadingTime) (maxN : Nat)
        (h : FeedHistory) (f dom : String) (entries : List Entry),
      (processFeed gt urt maxN h f dom entries).1
        = ((entries.take maxN).takeWhile
            (fun e => !(histGet h f).contains e.link)).map (processEntry gt urt dom) ∧
      histGet (processFeed gt urt maxN h f dom entries).2 f
        = (((entries.take maxN).takeWhile
            (fun e => !(histGet h f).contains e.link)).map (·.link)
            ++ histGet h f).take maxN) ∧
    ((processFeed idText noUrlRT 3 [("f", ["A", "B"])] "f" "dom"
        [entryWithLink "X", entryWithLink "A", entryWithLink "Z"]).1.map (·.link)
      = ["X"] ∧
     histGet (processFeed idText noUrlRT 3 [("f", ["A", "B"])] "f" "dom"
        [entryWithLink "X", entryWithLink "A", entryWithLink "Z"]).2 "f"
      = ["X", "A", "B"]) := by
  refine ⟨fun gt urt maxN h f dom entries => ?_, by decide, by decide⟩
  exact ⟨processFeed_articles gt urt maxN h f dom entries,
    processFeed_get_self gt urt maxN h f dom entries⟩

/-- C8, counterexample: for an entry with no inline content but a
non-empty description, the reading time is taken from the URL-fetch
oracle (`get_reading_time_from_url`), not from the description: two
oracles that differ at the entry's link give two different reading
times, so the network fallback is invoked even though a description
exists. -/
theorem url_fallback_ignores_description :
    entryDescOnly.description ≠ "" ∧
    joinedContent entryDescOnly = "" ∧
    (processEntry idText (fun _ => ReadingTime.mins 1) "dom" entryDescOnly).reading_time
      = ReadingTime.mins 1 ∧
    (processEntry idText (fun _ => ReadingTime.mins 7) "dom" entryDescOnly).reading_time
      = ReadingTime.mins 7 := by
  refine ⟨by decide, by decide, rfl, rfl⟩

/-- C8, amended: the link-fetch fallback is used exactly when the
entry's joined-and-stripped inline content is empty, regardless of the
description: with non-empty inline content the reading time is derived
from that text and the article is independent of the URL oracle; with
empty inline content the reading time is the URL oracle's answer. -/
theorem reading_time_source_policy (gt : String → String)
    (urt urt' : String → ReadingTime) (dom : String) (e : Entry) :
    (joinedContent e ≠ "" →
      (processEntry gt urt dom e).reading_time
        = ReadingTime.mins (get_reading_time_from_text (gt (joinedContent e))) ∧
      processEntry gt urt dom e = processEntry gt urt' dom e) ∧
    (joinedContent e = "" →
      (processEntry gt urt dom e).reading_time = urt e.link) := by
  refine ⟨fun hne => ⟨by simp [processEntry, hne], by simp [processEntry, hne]⟩,
    fun heq => by simp [processEntry, heq]⟩

theorem reading_time_source_policy_witness :
    joinedContent entryDescOnly = "" ∧
    (processEntry idText noUrlRT "dom" entryDescOnly).reading_time
      = noUrlRT entryDescOnly.link :=
  ⟨rfl, (reading_time_source_policy idText noUrlRT noUrlRT "dom" entryDescOnly).2 rfl⟩

/-- C10: the novelty check consults only the history as it stood when
the feed's scan began, never the links collected earlier in the same
scan: when every link in the capped entry window is absent from that
initial history, every entry — duplicates included — is emitted as its
own article and every occurrence of a link is recorded in the feed's
history. -/
theorem duplicate_links_all_emitted (gt : String → String)
    (urt : String → ReadingTime) (maxN : Nat) (h : FeedHistory)
    (f dom : String) (entries : List Entry)
    (hnew : ∀ e ∈ entries.take maxN, (histGet h f).contains e.link = false) :
    (processFeed gt urt maxN h f dom entries).1
      = (entries.take maxN).map (processEntry gt urt dom) ∧
    histGet (processFeed gt urt maxN h f dom entries).2 f
      = ((entries.take maxN).map (·.link) ++ histGet h f).take maxN := by
  have hall : (entries.take maxN).takeWhile
      (fun e => !(histGet h f).contains e.link) = entries.take maxN := by
    rw [List.takeWhile_eq_self_iff]
    intro e he
    simpa using hnew e he
  refine ⟨?_, ?_⟩
  · rw [processFeed_articles, hall]
  · rw [processFeed_get_self, hall]

theorem duplicate_links_all_emitted_witness :
    (∀ e ∈ ([entryWithLink "L", entryWithLink "L"] : List Entry).take 2,
      (histGet ([] : FeedHistory) "f").contains e.link = false) ∧
    ((processFeed idText noUrlRT 2 [] "f" "dom"
        [entryWithLink "L", entryWithLink "L"]).1
      = (([entryWithLink "L", entryWithLink "L"] : List Entry).take 2).map
          (processEntry idText noUrlRT "dom") ∧
     histGet (processFeed idText noUrlRT 2 [] "f" "dom"
        [entryWithLink "L", entryWithLink "L"]).2 "f"
      = ((([entryWithLink "L", entryWithLink "L"] : List Entry).take 2).map (·.link)
          ++ histGet ([] : FeedHistory) "f").take 2) :=
  ⟨by decide,
   duplicate_links_all_emitted idText noUrlRT 2 [] "f" "dom"
     [entryWithLink "L", entryWithLink "L"] (by decide)⟩

/-- C5, counterexample: with `max_articles_per_feed = 1` and a stored
history `["a", "b"]` for feed `f` whose upstream serves the single
entry `b` in both runs, the first run emits nothing but truncates the
history to `["a"]`, so the second run — same configuration, same
upstream entries — emits the article `b` again: the second run's
article list is not empty. -/
theorem rerun_emits_after_truncation :
    (fetch_rss_articles idText noUrlRT idText oneEntryB 1 ["f"]
        [("f", ["a", "b"])]).1 = [] ∧
    histGet (fetch_rss_articles idText noUrlRT idText oneEntryB 1 ["f"]
        [("f", ["a", "b"])]).2 "f" = ["a"] ∧
    (fetch_rss_articles idText noUrlRT idText oneEntryB 1 ["f"]
        (fetch_rss_articles idText noUrlRT idText oneEntryB 1 ["f"]
          [("f", ["a", "b"])]).2).1.map (·.link) = ["b"] ∧
    (fetch_rss_articles idText noUrlRT idText oneEntryB 1 ["f"]
        (fetch_rss_articles idText noUrlRT idText oneEntryB 1 ["f"]
          [("f", ["a", "b"])]).2).1 ≠ [] := by
  refine ⟨by decide, by decide, by decide, by decide⟩

/-- C5, amended: provided every configured feed's initial stored
history is within the cap (`len ≤ N`, the pipeline's own invariant),
running the pipeline a second time with the same configuration and the
same upstream entries produces an empty article list and leaves the
whole history mapping exactly as the first run left it. -/
theorem rerun_idempotent (gt : String → String) (urt : String → ReadingTime)
    (domOf : String → String) (fe : String → List Entry) (maxN : Nat)
    (feeds : List String) (h : FeedHistory)
    (hinv : ∀ f ∈ feeds, (histGet h f).length ≤ maxN) :
    (fetch_rss_articles gt urt domOf fe maxN feeds
        (fetch_rss_articles gt urt domOf fe maxN feeds h).2).1 = [] ∧
    (fetch_rss_articles gt urt domOf fe maxN feeds
        (fetch_rss_articles gt urt domOf fe maxN feeds h).2).2
      = (fetch_rss_articles gt urt domOf fe maxN feeds h).2 := by
  have hid := run_stable_id gt urt domOf fe maxN feeds
    (fetch_rss_articles gt urt domOf fe maxN feeds h).2
    (run_stable_after gt urt domOf fe maxN feeds h hinv)
  exact ⟨by rw [hid], by rw [hid]⟩

theorem rerun_idempotent_witness :
    (∀ f ∈ (["f"] : List String), (histGet [("f", ["a"])] f).length ≤ 1) ∧
    ((fetch_rss_articles idText noUrlRT idText oneEntryB 1 ["f"]
        (fetch_rss_articles idText noUrlRT idText oneEntryB 1 ["f"]
          [("f", ["a"])]).2).1 = [] ∧
     (fetch_rss_articles idText noUrlRT idText oneEntryB 1 ["f"]
        (fetch_rss_articles idText noUrlRT idText oneEntryB 1 ["f"]
          [("f", ["a"])]).2).2
       = (fetch_rss_articles idText noUrlRT idText oneEntryB 1 ["f"]
          [("f", ["a"])]).2) :=
  ⟨by decide,
   rerun_idempotent idText noUrlRT idText oneEntryB 1 ["f"] [("f", ["a"])] (by decide)⟩

/-- C6, counterexample: a feed key present in the loaded durable state
but not in the configured feed list is never truncated: with
`max_articles_per_feed = 1`, an empty feed list and a loaded history
holding two identifiers under `other`, the mapping handed to save
still holds both, violating `len ≤ N`. -/
theorem unconfigured_feed_exceeds_cap :
    histGet (fetch_rss_articles idText noUrlRT idText noEntries 1 []
        [("other", ["a", "b"])]).2 "other" = ["a", "b"] ∧
    ¬ (histGet (fetch_rss_articles idText noUrlRT idText noEntries 1 []
        [("other", ["a", "b"])]).2 "other").length ≤ 1 := by
  refine ⟨by decide, by decide⟩

/-- C6, amended: in the mapping handed to save at the end of the run,
every feed in the configured feed list has history length at most
`max_articles_per_feed`; a feed key not in the configured list is
passed through unchanged (so its length is bounded only if it already
was). -/
theorem history_bound_configured_only (gt : String → String)
    (urt : String → ReadingTime) (domOf : String → String)
    (fe : String → List Entry) (maxN : Nat) (feeds : List String)
    (h : FeedHistory) (f : String) :
    (f ∈ feeds →
      (histGet (fetch_rss_articles gt urt domOf fe maxN feeds h).2 f).length ≤ maxN) ∧
    (f ∉ feeds →
      histGet (fetch_rss_articles gt urt domOf fe maxN feeds h).2 f = histGet h f) :=
  ⟨fun hf => run_len_mem gt urt domOf fe maxN feeds h f hf,
   fun hf => run_get_not_mem gt urt domOf fe maxN feeds h f hf⟩

theorem history_bound_configured_only_witness :
    ("f" ∈ (["f"] : List String)) ∧
    (histGet (fetch_rss_articles idText noUrlRT idText noEntries 1 ["f"]
        [("f", ["a", "b"])]).2 "f").length ≤ 1 :=
  ⟨by decide,
   (history_bound_configured_only idText noUrlRT idText noEntries 1 ["f"]
     [("f", ["a", "b"])] "f").1 (by decide)⟩

/-- C9, counterexample: a feed that fails to retrieve or parse yields
an empty entry list, yet the feed loop still runs the batch update on
it: with `max_articles_per_feed = 1` and stored history `["a", "b"]`,
the failed feed emits no article but its history is truncated to
`["a"]` — the identifier `b` is lost, so the failed feed's stored
history is not left untouched. -/
theorem failed_feed_history_still_truncated :
    noEntries "f" = [] ∧
    (fetch_rss_articles idText noUrlRT idText noEntries 1 ["f"]
        [("f", ["a", "b"])]).1 = [] ∧
    histGet (fetch_rss_articles idText noUrlRT idText noEntries 1 ["f"]
        [("f", ["a", "b"])]).2 "f" = ["a"] := by
  refine ⟨rfl, by decide, by decide⟩

/-- C9, amended: a feed whose retrieval or parse fails (an empty entry
list) contributes zero articles to the run, leaves every other feed's
history unchanged, and — provided its stored history is within the cap
— keeps its own history exactly as it was; concretely, in a run over a
working feed and a failing feed, only the working feed's article is
emitted and the failing feed's identifiers survive. -/
theorem failed_feed_isolated (gt : String → String) (urt : String → ReadingTime)
    (maxN : Nat) (h : FeedHistory) (f dom : String)
    (hlen : (histGet h f).length ≤ maxN) :
    ((processFeed gt urt maxN h f dom []).1 = [] ∧
     histGet (processFeed gt urt maxN h f dom []).2 f = histGet h f ∧
     ∀ g, g ≠ f → histGet (processFeed gt urt maxN h f dom []).2 g = histGet h g) ∧
    ((fetch_rss_articles idText noUrlRT idText goodBadEntries 5 ["good", "bad"]
        [("bad", ["a"])]).1.map (·.link) = ["g1"] ∧
     histGet (fetch_rss_articles idText noUrlRT idText goodBadEntries 5
        ["good", "bad"] [("bad", ["a"])]).2 "bad" = ["a"] ∧
     histGet (fetch_rss_articles idText noUrlRT idText goodBadEntries 5
        ["good", "bad"] [("bad", ["a"])]).2 "good" = ["g1"]) := by
  refine ⟨⟨?_, ?_, ?_⟩, by decide, by decide, by decide⟩
  · rw [processFeed_articles]
    simp
  · rw [processFeed_get_self]
    simp [List.take_of_length_le hlen]
  · intro g hg
    exact processFeed_get_ne gt urt maxN h f dom g [] hg

theorem failed_feed_isolated_witness :
    (histGet [("f", ["a"]), ("g", ["x"])] "f").length ≤ 1 ∧
    ((processFeed idText noUrlRT 1 [("f", ["a"]), ("g", ["x"])] "f" "dom" []).1 = [] ∧
     histGet (processFeed idText noUrlRT 1 [("f", ["a"]), ("g", ["x"])] "f" "dom" []).2 "f"
       = histGet [("f", ["a"]), ("g", ["x"])] "f") ∧
    histGet (processFeed idText noUrlRT 1 [("f", ["a"]), ("g", ["x"])] "f" "dom" []).2 "g"
       = histGet [("f", ["a"]), ("g", ["x"])] "g" :=
  ⟨by decide,
   ⟨((failed_feed_isolated idText noUrlRT 1 [("f", ["a"]), ("g", ["x"])] "f" "dom"
       (by decide)).1).1,
    ((failed_feed_isolated idText noUrlRT 1 [("f", ["a"]), ("g", ["x"])] "f" "dom"
       (by decide)).1).2.1⟩,
   ((failed_feed_isolated idText noUrlRT 1 [("f", ["a"]), ("g", ["x"])] "f" "dom"
       (by decide)).1).2.2 "g" (by decide)⟩

end RssToEmail
